import Mathlib

/-!
Verification development for the ore-boost-rebase-worker repository.

The worker periodically rebases every stake account of a boost pool and
manages address lookup tables.  This file gives a shallow embedding of the
relevant functions of `src/checkpoint.rs`, `src/lookup_tables.rs`,
`src/client.rs` and `src/error.rs`, and proves or refutes the frozen claims
about them.

Modelling conventions:
- Solana `Pubkey` values are modelled abstractly as naturals (`Pk`) where
  only identity matters, and as lists of bytes (`List Nat`) where the
  registry file's byte-level framing matters.
- Rust `u64` ids are modelled as `Nat`; `i64` unix timestamps as `Int`
  (no realistic timestamp arithmetic here can overflow an `i64`).
- The effectful functions are modelled as pure functions producing the
  ordered list of ledger submissions / file operations they perform
  (an event trace), with RPC-derived inputs passed in as parameters.
-/

/-- Abstract pubkey: only identity matters for the checkpoint and
lookup-table traces. -/
abbrev Pk := Nat

/-- Model of `Pubkey::default()`, the all-zero address. -/
def pubkeyDefault : Pk := 0

/-- Constant `MAX_ACCOUNTS_PER_TX` from `src/checkpoint.rs` line 11. -/
def MAX_ACCOUNTS_PER_TX : Nat := 38

/-- Constant `MAX_ACCOUNTS_PER_LUT` from `src/lookup_tables.rs` line 17. -/
def MAX_ACCOUNTS_PER_LUT : Nat := 256

/-- Constant `MAX_ACCOUNTS_PER_TX_CLOSE` from `src/lookup_tables.rs` line 18. -/
def MAX_ACCOUNTS_PER_TX_CLOSE : Nat := 10

/-- Fuel-indexed chunking, the model of Rust `slice::chunks(k)`:
take `k` elements at a time.  The fuel argument makes the recursion
structural; `chunks` instantiates it with the list length, which is
always enough fuel when `0 < k`. -/
def chunksF (k : Nat) : Nat → List α → List (List α)
  | 0, _ => []
  | _ + 1, [] => []
  | f + 1, x :: xs => (x :: xs).take k :: chunksF k f ((x :: xs).drop k)

/-- Model of Rust `slice::chunks(k)` (callers in this codebase always use
`0 < k`, since `chunks(0)` panics in Rust). -/
def chunks (k : Nat) (l : List α) : List (List α) := chunksF k l.length l

theorem chunksF_congr {α : Type} {k : Nat} (hk : 0 < k) :
    ∀ (f₁ f₂ : Nat) (l : List α), l.length ≤ f₁ → l.length ≤ f₂ →
      chunksF k f₁ l = chunksF k f₂ l := by
  intro f₁
  induction f₁ with
  | zero =>
    intro f₂ l h₁ h₂
    have hl : l = [] := List.eq_nil_of_length_eq_zero (Nat.le_zero.mp h₁)
    subst hl
    cases f₂ <;> simp [chunksF]
  | succ f ih =>
    intro f₂ l h₁ h₂
    cases l with
    | nil => cases f₂ <;> simp [chunksF]
    | cons x xs =>
      cases f₂ with
      | zero => simp at h₂
      | succ f₂ =>
        simp only [chunksF]
        congr 1
        apply ih
        · have hd := List.length_drop k (x :: xs)
          simp only [List.length_cons] at hd h₁
          omega
        · have hd := List.length_drop k (x :: xs)
          simp only [List.length_cons] at hd h₂
          omega

theorem chunks_nil {α : Type} {k : Nat} : chunks k ([] : List α) = [] := by
  cases k <;> rfl

theorem chunks_cons {α : Type} {k : Nat} (hk : 0 < k) (x : α) (xs : List α) :
    chunks k (x :: xs) = (x :: xs).take k :: chunks k ((x :: xs).drop k) := by
  unfold chunks
  simp only [List.length_cons, chunksF]
  congr 1
  apply chunksF_congr hk
  · have hd := List.length_drop k (x :: xs)
    simp only [List.length_cons] at hd
    omega
  · exact le_refl _

theorem chunks_flatten {α : Type} {k : Nat} (hk : 0 < k) :
    (l : List α) → (chunks k l).flatten = l
  | [] => by simp [chunks_nil]
  | x :: xs => by
    rw [chunks_cons hk]
    rw [List.flatten_cons]
    rw [chunks_flatten hk ((x :: xs).drop k)]
    exact List.take_append_drop k (x :: xs)
termination_by l => l.length
decreasing_by
  simp only [List.length_drop, List.length_cons]
  omega

theorem chunks_size_le {α : Type} {k : Nat} (hk : 0 < k) :
    (l : List α) → ∀ g ∈ chunks k l, g.length ≤ k
  | [] => by simp [chunks_nil]
  | x :: xs => by
    rw [chunks_cons hk]
    intro g hg
    rcases List.mem_cons.mp hg with h | h
    · subst h
      rw [List.length_take]
      omega
    · exact chunks_size_le hk ((x :: xs).drop k) g h
termination_by l => l.length
decreasing_by
  simp only [List.length_drop, List.length_cons]
  omega

theorem chunks_count {α : Type} {k : Nat} (hk : 0 < k) :
    (l : List α) → (chunks k l).length = (l.length + k - 1) / k
  | [] => by
    rw [chunks_nil]
    simp only [List.length_nil, Nat.zero_add]
    rw [Nat.div_eq_of_lt (by omega)]
  | x :: xs => by
    rw [chunks_cons hk]
    simp only [List.length_cons]
    rw [chunks_count hk ((x :: xs).drop k)]
    rw [List.length_drop]
    simp only [List.length_cons]
    rcases le_or_lt k (xs.length + 1) with h | h
    · have h1 : xs.length + 1 - k + k - 1 = xs.length := by omega
      have h2 : xs.length + 1 + k - 1 = xs.length + k := by omega
      rw [h1, h2, Nat.add_div_right _ hk]
    · have h1 : xs.length + 1 - k = 0 := by omega
      rw [h1]
      have l1 : (0 + k - 1) / k = 0 := Nat.div_eq_of_lt (by omega)
      have r1 : (xs.length + 1 + k - 1) / k = 1 :=
        Nat.div_eq_of_lt_le (by omega) (by omega)
      omega
termination_by l => l.length
decreasing_by
  simp only [List.length_drop, List.length_cons]
  omega

/-- Error enumeration from `src/error.rs`. -/
inductive WorkerError where
  | InvalidHeliusCluster
  | MissingHeliusSolanaAsyncClient
  | InvalidPubkeyBytes
  | ClockStillTicking
  | UnconfirmedJitoBundle
  | TooManyTransactionsInJitoBundle
  | EmptyJitoBundle
deriving DecidableEq, Repr

/-- Stake account state (external `ore_boost_api::state::Stake`); only the
sequential `id` field (a `u64`) is consulted by the worker. -/
structure Stake where
  id : Nat
deriving DecidableEq, Repr

/-- Checkpoint account state (external `ore_boost_api::state::Checkpoint`);
the worker consults `current_id` (the cursor, a `u64`) and `ts`
(last rebase unix time, an `i64`). -/
structure Checkpoint where
  current_id : Nat
  ts : Int
deriving DecidableEq, Repr

/-- Clock sysvar; the worker consults `unix_timestamp` (an `i64`). -/
structure Clock where
  unix_timestamp : Int
deriving DecidableEq, Repr

/-- Modelled from the spec: the constant `CHECKPOINT_INTERVAL` lives in the
external `ore_boost_api::consts` crate, which is not part of src.  Scenario A
of the spec fixes the interval threshold at 3600 seconds; the claims proved
about `check_for_time` hold for any positive value. -/
def CHECKPOINT_INTERVAL : Int := 3600

/-- Model of `check_for_time` (src/checkpoint.rs lines 168-186), after a
successful clock read: compare elapsed time against the interval and signal
`ClockStillTicking` when the interval has not yet elapsed. -/
def check_for_time (clock : Clock) (checkpoint : Checkpoint) :
    Except WorkerError Unit :=
  if clock.unix_timestamp - checkpoint.ts < CHECKPOINT_INTERVAL then
    Except.error WorkerError.ClockStillTicking
  else
    Except.ok ()

/-- Model of `get_stake_accounts` (src/checkpoint.rs lines 131-165), applied
to the account list returned by the participant scan: stable-sort by stake
id, keep ids at or past the checkpoint cursor, and return the addresses. -/
def get_stake_accounts (checkpoint : Checkpoint) (accounts : List (Pk × Stake)) :
    List Pk :=
  ((accounts.mergeSort (fun a b => decide (a.2.id ≤ b.2.id))).filter
      (fun x => decide (checkpoint.current_id ≤ x.2.id))).map Prod.fst

/-- Rebase instruction built by `ore_boost_api::sdk::rebase(signer, mint, stake)`. -/
structure RebaseIx where
  signer : Pk
  mint : Pk
  stake : Pk
deriving DecidableEq, Repr

/-- Model of `ore_boost_api::sdk::rebase`. -/
def rebase (signer mint stake : Pk) : RebaseIx := ⟨signer, mint, stake⟩

/-- Events of the worker's trace: ledger submissions and registry file
operations, in the order the code performs them. -/
inductive Ev where
  /-- `client.send_transaction` with a list of rebase instructions. -/
  | sendTx (ixs : List RebaseIx)
  /-- `client.send_jito_bundle_with_luts` with a bundle of transactions. -/
  | sendJito (txs : List (List RebaseIx)) (luts : List Pk)
  /-- submission of a `create_lookup_table` instruction for table `lut`. -/
  | createLutTx (lut : Pk)
  /-- `write_file` persisting table `lut` to the registry. -/
  | persistLut (lut : Pk)
  /-- one jito bundle of `extend_lookup_table` instructions, all targeting
  table `lut`; each element of `subs` is the address chunk of one extend. -/
  | extendJito (lut : Pk) (subs : List (List Pk))
  /-- one `deactivate_lookup_table` transaction naming the tables in `luts`,
  with submission outcome `ok`. -/
  | deactivateTx (luts : List Pk) (ok : Bool)
  /-- one `close_lookup_table` transaction naming the tables in `luts`,
  with submission outcome `ok`. -/
  | closeTx (luts : List Pk) (ok : Bool)
  /-- `clear_file` truncating the pool's registry file. -/
  | clearRegistry
deriving DecidableEq, Repr

/-- Model of `rebase_all` (src/checkpoint.rs lines 188-232) as the ordered
list of submissions it performs: with no stake accounts, a single rebase of
the default address; otherwise the accounts are chunked into transactions of
at most `MAX_ACCOUNTS_PER_TX` rebases, and the transactions are submitted as
jito bundles of at most 4. -/
def rebase_all (signer mint : Pk) (stake_accounts : List Pk)
    (lookup_tables : List Pk) : List Ev :=
  if stake_accounts.isEmpty then
    [Ev.sendTx [rebase signer mint pubkeyDefault]]
  else
    (chunks 4 ((chunks MAX_ACCOUNTS_PER_TX stake_accounts).map
        (fun c => c.map (rebase signer mint)))).map
      (fun txs => Ev.sendJito txs lookup_tables)

/-- Transactions submitted in a trace, in order, flattening jito bundles. -/
def submittedTxs : List Ev → List (List RebaseIx)
  | [] => []
  | Ev.sendTx ixs :: tr => ixs :: submittedTxs tr
  | Ev.sendJito txs _ :: tr => txs ++ submittedTxs tr
  | _ :: tr => submittedTxs tr

/-- Lookup-table operations named by claim C6: create, extend, deactivate,
close. -/
def isLutOp : Ev → Bool
  | Ev.createLutTx _ => true
  | Ev.extendJito _ _ => true
  | Ev.deactivateTx _ _ => true
  | Ev.closeTx _ _ => true
  | _ => false

/-- Per-chunk body of `open_new` (src/lookup_tables.rs lines 76-115): submit
the create instruction, persist the new table's address to the registry,
then send the extend instructions as jito bundles: extends are built over
26-address sub-chunks and flushed in bundles of 5, with a final flush of any
leftovers. -/
def open_new_chunk (lut : Pk) (chunk : List Pk) : List Ev :=
  Ev.createLutTx lut :: Ev.persistLut lut ::
    (chunks 5 (chunks 26 chunk)).map (fun grp => Ev.extendJito lut grp)

/-- Loop of `open_new` over the 256-address chunks of the stake accounts;
`lutOf i` is the table address derived (from the clock slot) for chunk `i`. -/
def open_new_go (lutOf : Nat → Pk) : Nat → List (List Pk) → List Ev
  | _, [] => []
  | i, c :: cs => open_new_chunk (lutOf i) c ++ open_new_go lutOf (i + 1) cs

/-- Model of `open_new` (src/lookup_tables.rs lines 68-118) as the ordered
trace of ledger submissions and registry writes it performs. -/
def open_new (lutOf : Nat → Pk) (stake_accounts : List Pk) : List Ev :=
  open_new_go lutOf 0 (chunks MAX_ACCOUNTS_PER_LUT stake_accounts)

/-- Trace checker for claim C7: scanning left to right, every extend bundle
must target a table already persisted to the registry. -/
def checkTrace (persisted : List Pk) : List Ev → Bool
  | [] => true
  | Ev.persistLut t :: tr => checkTrace (t :: persisted) tr
  | Ev.extendJito t _ :: tr => persisted.contains t && checkTrace persisted tr
  | _ :: tr => checkTrace persisted tr

/-- Model of `close_prior` (src/lookup_tables.rs lines 20-66) on a
successfully read registry `luts`, as the ordered trace it performs.  The
code iterates over the 10-table chunks of `luts` but passes the full `luts`
list to `deactivate` / `close` on every iteration; each submission's outcome
is given by the oracles `deactOk` / `closeOk` (indexed by iteration), and
outcomes are only logged, never acted on.  The registry is truncated
unconditionally at the end. -/
def close_prior (deactOk closeOk : Nat → Bool) (luts : List Pk) : List Ev :=
  ((chunks MAX_ACCOUNTS_PER_TX_CLOSE luts).enum.map
      (fun ic => Ev.deactivateTx luts (deactOk ic.1)))
    ++ ((chunks MAX_ACCOUNTS_PER_TX_CLOSE luts).enum.map
      (fun ic => Ev.closeTx luts (closeOk ic.1)))
    ++ [Ev.clearRegistry]

/-- Registry contents after a trace: `persistLut` appends a record
(`write_file` opens in append mode), `clearRegistry` truncates
(`clear_file`), and nothing else touches the file. -/
def applyRegistry (reg : List Pk) : List Ev → List Pk
  | [] => reg
  | Ev.persistLut t :: tr => applyRegistry (reg ++ [t]) tr
  | Ev.clearRegistry :: tr => applyRegistry [] tr
  | _ :: tr => applyRegistry reg tr

def isCloseTx : Ev → Bool
  | Ev.closeTx _ _ => true
  | _ => false

def isDeactivateTx : Ev → Bool
  | Ev.deactivateTx _ _ => true
  | _ => false

/-- Checker for claim C8: does any close transaction appear after a registry
truncation in the trace? -/
def closeAfterClear : List Ev → Bool
  | [] => false
  | Ev.clearRegistry :: tr => tr.any isCloseTx || closeAfterClear tr
  | _ :: tr => closeAfterClear tr

/-- Byte-level model of the registry record framing: each record is written
as its raw bytes followed by the delimiter byte 10 (src/lookup_tables.rs
lines 165-168). -/
def encodeRecords (rs : List (List Nat)) : List Nat :=
  (rs.map (fun r => r ++ [10])).flatten

/-- Model of `write_file` (src/lookup_tables.rs lines 156-171): the file is
opened in append mode, and each table address is written as its 32 raw bytes
followed by a newline byte. -/
def write_file (init : List Nat) (luts : List (List Nat)) : List Nat :=
  init ++ encodeRecords luts

/-- One `read_until(b'\n')` round followed by the unconditional `pop` of the
loop body of `read_file` (src/lookup_tables.rs lines 184-204): `acc` holds
the bytes read so far on the current line.  Reaching the delimiter emits the
accumulated bytes (the pop removes the delimiter); end of input with a
nonempty accumulator emits the accumulated bytes minus their last byte (the
pop removes a data byte). -/
def readLoop (acc : List Nat) : List Nat → List (List Nat)
  | [] => if acc.isEmpty then [] else [acc.dropLast]
  | b :: rest =>
    if b = 10 then acc :: readLoop [] rest else readLoop (acc ++ [b]) rest

/-- Raw lines extracted by the `read_until` loop of `read_file`. -/
def splitRead (bytes : List Nat) : List (List Nat) := readLoop [] bytes

/-- Per-record decode of `read_file`: `TryInto<[u8; 32]>` succeeds exactly on
32-byte lines, anything else is `InvalidPubkeyBytes`. -/
def parse_record (bytes : List Nat) : Except WorkerError (List Nat) :=
  if bytes.length = 32 then Except.ok bytes
  else Except.error WorkerError.InvalidPubkeyBytes

/-- Model of `read_file` (src/lookup_tables.rs lines 174-207): split the file
at newline bytes, keep the lines that decode to a 32-byte pubkey, log and
skip the rest; the overall read returns `ok` regardless of decode failures. -/
def read_file (bytes : List Nat) : Except WorkerError (List (List Nat)) :=
  Except.ok ((splitRead bytes).foldl
    (fun luts line =>
      match parse_record line with
      | Except.ok pk => luts ++ [pk]
      | Except.error _ => luts) [])

/-- Model of `get_program_accounts` (src/client.rs lines 98-132) after the
RPC scan returned `fetched`: decode each account's data, keep the decodable
ones via `flat_map`, and return `ok`; a decode failure is silently dropped. -/
def get_program_accounts {T : Type} (decode : List Nat → Except WorkerError T)
    (fetched : List (Pk × List Nat)) : Except WorkerError (List (Pk × T)) :=
  Except.ok (fetched.foldr
    (fun pd acc =>
      match decode pd.2 with
      | Except.ok t => (pd.1, t) :: acc
      | Except.error _ => acc) [])

/-- Model of `get_boost_stake_accounts` (src/client.rs lines 71-79): a
`get_program_accounts` scan decoding `Stake` accounts (the boost filter is
applied server-side). -/
def get_boost_stake_accounts (decode : List Nat → Except WorkerError Stake)
    (fetched : List (Pk × List Nat)) : Except WorkerError (List (Pk × Stake)) :=
  get_program_accounts decode fetched

theorem readLoop_append_no10 :
    ∀ (r : List Nat), (10 : Nat) ∉ r → ∀ (acc bs : List Nat),
      readLoop acc (r ++ bs) = readLoop (acc ++ r) bs := by
  intro r
  induction r with
  | nil => intro _ acc bs; simp
  | cons b r ih =>
    intro h acc bs
    have hb : b ≠ 10 := fun hb => h (hb ▸ List.mem_cons_self b r)
    have hr : (10 : Nat) ∉ r := fun hr => h (List.mem_cons_of_mem b hr)
    simp only [List.cons_append, readLoop, if_neg hb]
    have h2 := ih hr (acc ++ [b]) bs
    rw [List.append_assoc] at h2
    exact h2

theorem splitRead_encode :
    ∀ (rs : List (List Nat)), (∀ r ∈ rs, (10 : Nat) ∉ r) →
      splitRead (encodeRecords rs) = rs := by
  intro rs
  induction rs with
  | nil => intro _; rfl
  | cons r rs ih =>
    intro h
    have hr : (10 : Nat) ∉ r := h r (List.mem_cons_self r rs)
    have hrs : ∀ x ∈ rs, (10 : Nat) ∉ x := fun x hx => h x (List.mem_cons_of_mem r hx)
    show readLoop [] (encodeRecords (r :: rs)) = r :: rs
    have henc : encodeRecords (r :: rs) = r ++ (10 :: encodeRecords rs) := by
      simp [encodeRecords]
    rw [henc, readLoop_append_no10 r hr [] _]
    simp only [List.nil_append, readLoop, if_pos rfl]
    exact congrArg (r :: ·) (ih hrs)

theorem read_file_foldl :
    ∀ (lines : List (List Nat)) (init : List (List Nat)),
      lines.foldl
        (fun luts line =>
          match parse_record line with
          | Except.ok pk => luts ++ [pk]
          | Except.error _ => luts) init
        = init ++ lines.filter (fun l => decide (l.length = 32)) := by
  intro lines
  induction lines with
  | nil => intro init; simp
  | cons l lines ih =>
    intro init
    by_cases h : l.length = 32
    · simp only [List.foldl_cons, parse_record, if_pos h]
      have ih2 := ih (init ++ [l])
      simp only [parse_record] at ih2
      rw [ih2]
      simp [List.filter_cons, h, List.append_assoc]
    · simp only [List.foldl_cons, parse_record, if_neg h]
      have ih2 := ih init
      simp only [parse_record] at ih2
      rw [ih2]
      simp [List.filter_cons, h]

theorem read_file_eq_filter (bytes : List Nat) :
    read_file bytes
      = Except.ok ((splitRead bytes).filter (fun l => decide (l.length = 32))) := by
  unfold read_file
  rw [read_file_foldl]
  simp

/-- C3 (amended): writing N addresses whose 32 raw bytes avoid the delimiter
byte 10 and reading the file back yields the same N addresses in write
order. -/
theorem registry_round_trip (luts : List (List Nat))
    (h32 : ∀ r ∈ luts, r.length = 32) (h10 : ∀ r ∈ luts, (10 : Nat) ∉ r) :
    read_file (write_file [] luts) = Except.ok luts := by
  have hw : write_file [] luts = encodeRecords luts := by simp [write_file]
  rw [hw, read_file_eq_filter, splitRead_encode luts h10]
  congr 1
  rw [List.filter_eq_self]
  intro r hr
  exact decide_eq_true (h32 r hr)

/-- C3 witness: a concrete one-address round trip. -/
theorem registry_round_trip_witness :
    read_file (write_file [] [List.replicate 32 7]) = Except.ok [List.replicate 32 7] :=
  registry_round_trip [List.replicate 32 7] (by decide) (by decide)

/-- C3 counterexample: an address whose byte representation contains the
delimiter byte 10 does not round trip; the written record is split at its
interior newline bytes and every piece is rejected as malformed, so the read
returns the empty list instead of the written address. -/
theorem registry_round_trip_counterexample :
    read_file (write_file [] [List.replicate 32 10]) = Except.ok []
      ∧ [List.replicate (32 : Nat) (10 : Nat)] ≠ ([] : List (List Nat)) := by
  constructor
  · rfl
  · decide

/-- C4: a record of incorrect byte length in the registry file is skipped,
while every preceding and following well-formed 32-byte record is still
returned, and the read returns `ok` rather than aborting. -/
theorem read_file_skips_malformed (pre post : List (List Nat)) (bad : List Nat)
    (hpre : ∀ r ∈ pre, r.length = 32 ∧ (10 : Nat) ∉ r)
    (hpost : ∀ r ∈ post, r.length = 32 ∧ (10 : Nat) ∉ r)
    (hbadlen : bad.length ≠ 32) (hbad10 : (10 : Nat) ∉ bad) :
    read_file (encodeRecords (pre ++ bad :: post)) = Except.ok (pre ++ post) := by
  have h10 : ∀ r ∈ pre ++ bad :: post, (10 : Nat) ∉ r := by
    intro r hr
    rcases List.mem_append.mp hr with h | h
    · exact (hpre r h).2
    · rcases List.mem_cons.mp h with h | h
      · exact h ▸ hbad10
      · exact (hpost r h).2
  rw [read_file_eq_filter, splitRead_encode _ h10]
  congr 1
  rw [List.filter_append, List.filter_cons, decide_eq_false hbadlen,
    if_neg Bool.false_ne_true]
  rw [List.filter_eq_self.mpr (fun r hr => decide_eq_true (hpre r hr).1),
    List.filter_eq_self.mpr (fun r hr => decide_eq_true (hpost r hr).1)]

/-- C4 witness: a concrete file with a short record between two well-formed
records. -/
theorem read_file_skips_malformed_witness :
    read_file (encodeRecords ([List.replicate 32 1] ++ [1, 2, 3] :: [List.replicate 32 2]))
      = Except.ok ([List.replicate 32 1] ++ [List.replicate 32 2]) :=
  read_file_skips_malformed [List.replicate 32 1] [List.replicate 32 2] [1, 2, 3]
    (by decide) (by decide) (by decide) (by decide)

theorem submittedTxs_sendJito (luts : List Pk) :
    ∀ (cs : List (List (List RebaseIx))),
      submittedTxs (cs.map (fun txs => Ev.sendJito txs luts)) = cs.flatten := by
  intro cs
  induction cs with
  | nil => rfl
  | cons c cs ih =>
    simp only [List.map_cons, submittedTxs, List.flatten_cons, ih]

/-- C1: `rebase_all` partitions the remaining stake accounts into
`ceil(n / 38)` chunks of at most `MAX_ACCOUNTS_PER_TX = 38` accounts whose
concatenation is exactly the input list, and (for a nonempty input) the
transactions it submits, in emission order, are exactly those chunks mapped
to rebase instructions. -/
theorem rebase_all_batching (S : List Pk) :
    (chunks MAX_ACCOUNTS_PER_TX S).length
        = (S.length + MAX_ACCOUNTS_PER_TX - 1) / MAX_ACCOUNTS_PER_TX
    ∧ (∀ g ∈ chunks MAX_ACCOUNTS_PER_TX S, g.length ≤ MAX_ACCOUNTS_PER_TX)
    ∧ (chunks MAX_ACCOUNTS_PER_TX S).flatten = S
    ∧ (S ≠ [] → ∀ signer mint luts,
        submittedTxs (rebase_all signer mint S luts)
          = (chunks MAX_ACCOUNTS_PER_TX S).map
              (fun c => c.map (rebase signer mint))) := by
  refine ⟨chunks_count (by decide) S, chunks_size_le (by decide) S,
    chunks_flatten (by decide) S, ?_⟩
  intro hS signer mint luts
  unfold rebase_all
  rw [if_neg (by simpa using hS)]
  rw [submittedTxs_sendJito]
  exact chunks_flatten (by decide) _

/-- C1 witness: a concrete two-account batch. -/
theorem rebase_all_batching_witness :
    ([1, 2] : List Pk) ≠ []
      ∧ submittedTxs (rebase_all 7 8 [1, 2] [])
          = (chunks MAX_ACCOUNTS_PER_TX [1, 2]).map (fun c => c.map (rebase 7 8)) :=
  ⟨by decide, (rebase_all_batching [1, 2]).2.2.2 (by decide) 7 8 []⟩

/-- C6: with an empty stake account list, `rebase_all` submits exactly one
transaction holding exactly one rebase instruction naming the default
address, and performs no lookup-table operation. -/
theorem rebase_all_empty (signer mint : Pk) (luts : List Pk) :
    rebase_all signer mint [] luts = [Ev.sendTx [rebase signer mint pubkeyDefault]]
    ∧ ∀ e ∈ rebase_all signer mint [] luts, isLutOp e = false := by
  constructor
  · rfl
  · intro e he
    have h1 : rebase_all signer mint [] luts
        = [Ev.sendTx [rebase signer mint pubkeyDefault]] := rfl
    rw [h1, List.mem_singleton] at he
    subst he
    rfl

/-- C6 witness: the empty-input behaviour at concrete addresses. -/
theorem rebase_all_empty_witness :
    rebase_all 3 4 [] [] = [Ev.sendTx [rebase 3 4 pubkeyDefault]]
    ∧ isLutOp (Ev.sendTx [rebase 3 4 pubkeyDefault]) = false :=
  ⟨(rebase_all_empty 3 4 []).1, (rebase_all_empty 3 4 []).2 _ (by decide)⟩

theorem checkTrace_extends (lut : Pk) :
    ∀ (grps : List (List (List Pk))) (ps : List Pk) (tr : List Ev),
      ps.contains lut = true →
      checkTrace ps ((grps.map (fun grp => Ev.extendJito lut grp)) ++ tr)
        = checkTrace ps tr := by
  intro grps
  induction grps with
  | nil => intro ps tr _; rfl
  | cons g grps ih =>
    intro ps tr h
    simp only [List.map_cons, List.cons_append, checkTrace, h, Bool.true_and]
    exact ih ps tr h

theorem open_new_go_ok (lutOf : Nat → Pk) :
    ∀ (cs : List (List Pk)) (i : Nat) (ps : List Pk),
      checkTrace ps (open_new_go lutOf i cs) = true := by
  intro cs
  induction cs with
  | nil => intro i ps; rfl
  | cons c cs ih =>
    intro i ps
    simp only [open_new_go, open_new_chunk, List.cons_append, checkTrace]
    exact (checkTrace_extends (lutOf i) (chunks 5 (chunks 26 c)) (lutOf i :: ps)
      (open_new_go lutOf (i + 1) cs) (by simp)).trans (ih (i + 1) (lutOf i :: ps))

/-- C7: in the trace of `open_new`, every extend bundle targets a table whose
address was persisted to the registry earlier in the trace; no extend is
attempted against an unpersisted table. -/
theorem open_new_persists_before_extend (lutOf : Nat → Pk)
    (stake_accounts : List Pk) :
    checkTrace [] (open_new lutOf stake_accounts) = true :=
  open_new_go_ok lutOf _ 0 []

theorem applyRegistry_deacts (luts : List Pk) (f : Nat → Bool) :
    ∀ (l : List (Nat × List Pk)) (reg : List Pk) (tr : List Ev),
      applyRegistry reg ((l.map (fun ic => Ev.deactivateTx luts (f ic.1))) ++ tr)
        = applyRegistry reg tr := by
  intro l
  induction l with
  | nil => intro reg tr; rfl
  | cons ic l ih =>
    intro reg tr
    simp only [List.map_cons, List.cons_append, applyRegistry]
    exact ih reg tr

theorem applyRegistry_closes (luts : List Pk) (f : Nat → Bool) :
    ∀ (l : List (Nat × List Pk)) (reg : List Pk) (tr : List Ev),
      applyRegistry reg ((l.map (fun ic => Ev.closeTx luts (f ic.1))) ++ tr)
        = applyRegistry reg tr := by
  intro l
  induction l with
  | nil => intro reg tr; rfl
  | cons ic l ih =>
    intro reg tr
    simp only [List.map_cons, List.cons_append, applyRegistry]
    exact ih reg tr

theorem closeAfterClear_deacts (luts : List Pk) (f : Nat → Bool) :
    ∀ (l : List (Nat × List Pk)) (tr : List Ev),
      closeAfterClear ((l.map (fun ic => Ev.deactivateTx luts (f ic.1))) ++ tr)
        = closeAfterClear tr := by
  intro l
  induction l with
  | nil => intro tr; rfl
  | cons ic l ih =>
    intro tr
    simp only [List.map_cons, List.cons_append, closeAfterClear]
    exact ih tr

theorem closeAfterClear_closes (luts : List Pk) (f : Nat → Bool) :
    ∀ (l : List (Nat × List Pk)) (tr : List Ev),
      closeAfterClear ((l.map (fun ic => Ev.closeTx luts (f ic.1))) ++ tr)
        = closeAfterClear tr := by
  intro l
  induction l with
  | nil => intro tr; rfl
  | cons ic l ih =>
    intro tr
    simp only [List.map_cons, List.cons_append, closeAfterClear]
    exact ih tr

/-- C8 (amended): in `close_prior` the registry truncation happens only after
the whole close phase (no close transaction follows the truncation in the
trace), and the truncation unconditionally empties the registry, removing
every recorded table regardless of whether its close submission was
accepted. -/
theorem close_prior_clear_behaviour (deactOk closeOk : Nat → Bool)
    (luts reg : List Pk) :
    closeAfterClear (close_prior deactOk closeOk luts) = false
    ∧ applyRegistry reg (close_prior deactOk closeOk luts) = [] := by
  unfold close_prior
  constructor
  · rw [List.append_assoc, closeAfterClear_deacts, closeAfterClear_closes]
    rfl
  · rw [List.append_assoc, applyRegistry_deacts, applyRegistry_closes]
    rfl

/-- C8 counterexample: with one recorded table whose close submission fails,
the close failure is visible in the trace yet the table is still removed
from the registry, refuting the claim that tables whose close failed remain
recorded. -/
theorem close_prior_counterexample :
    Ev.closeTx [5] false ∈ close_prior (fun _ => true) (fun _ => false) [5]
    ∧ applyRegistry [5] (close_prior (fun _ => true) (fun _ => false) [5]) = [] :=
  ⟨by decide, by rfl⟩

/-- C9 (code bug witness): with 11 recorded tables, every iteration of the
chunk loop of `close_prior` submits the full 11-table list — so each
deactivate / close transaction carries 11 instructions, above the
`MAX_ACCOUNTS_PER_TX_CLOSE = 10` ceiling, and every table appears in two
deactivate and two close transactions instead of exactly one. -/
theorem close_prior_bug_eval :
    ((close_prior (fun _ => true) (fun _ => true) (List.range 11)).filter
        isDeactivateTx
      = [Ev.deactivateTx (List.range 11) true, Ev.deactivateTx (List.range 11) true])
    ∧ ((close_prior (fun _ => true) (fun _ => true) (List.range 11)).filter
        isCloseTx
      = [Ev.closeTx (List.range 11) true, Ev.closeTx (List.range 11) true])
    ∧ MAX_ACCOUNTS_PER_TX_CLOSE < (List.range 11).length := by
  decide

/-- C2: `get_stake_accounts` returns exactly the addresses of the scanned
participants whose stake id is at or past the checkpoint cursor, ordered
ascending by id: its output is the address projection of a list that is a
permutation of the cursor-filtered scan and is sorted by stake id. -/
theorem get_stake_accounts_spec (checkpoint : Checkpoint)
    (accounts : List (Pk × Stake)) :
    ∃ l : List (Pk × Stake),
      l.Perm (accounts.filter (fun x => decide (checkpoint.current_id ≤ x.2.id)))
      ∧ l.Pairwise (fun a b => a.2.id ≤ b.2.id)
      ∧ get_stake_accounts checkpoint accounts = l.map Prod.fst := by
  refine ⟨(accounts.mergeSort (fun a b => decide (a.2.id ≤ b.2.id))).filter
      (fun x => decide (checkpoint.current_id ≤ x.2.id)), ?_, ?_, rfl⟩
  · exact (List.mergeSort_perm accounts _).filter _
  · have hs : (accounts.mergeSort (fun a b => decide (a.2.id ≤ b.2.id))).Pairwise
        (fun a b => decide (a.2.id ≤ b.2.id) = true) := by
      apply List.sorted_mergeSort
      · intro a b c h1 h2
        simp only [decide_eq_true_eq] at h1 h2 ⊢
        omega
      · intro a b
        simp only [Bool.or_eq_true, decide_eq_true_eq]
        omega
    exact (hs.filter _).imp (fun h => of_decide_eq_true h)

/-- C5: given a successful clock read, `check_for_time` signals
`ClockStillTicking` exactly when the elapsed time since the checkpoint's
last rebase timestamp is below the checkpoint interval, and returns `ok`
once the interval has elapsed. -/
theorem check_for_time_spec (clock : Clock) (checkpoint : Checkpoint) :
    (check_for_time clock checkpoint = Except.error WorkerError.ClockStillTicking
      ↔ clock.unix_timestamp - checkpoint.ts < CHECKPOINT_INTERVAL)
    ∧ (CHECKPOINT_INTERVAL ≤ clock.unix_timestamp - checkpoint.ts →
        check_for_time clock checkpoint = Except.ok ()) := by
  unfold check_for_time
  by_cases h : clock.unix_timestamp - checkpoint.ts < CHECKPOINT_INTERVAL
  · rw [if_pos h]
    exact ⟨⟨fun _ => h, fun _ => rfl⟩, fun hle => absurd h (not_lt.mpr hle)⟩
  · rw [if_neg h]
    exact ⟨⟨fun he => Except.noConfusion he, fun hlt => absurd hlt h⟩,
      fun _ => rfl⟩

/-- C5 witness: a concrete elapsed interval. -/
theorem check_for_time_spec_witness :
    CHECKPOINT_INTERVAL ≤ (5000 : Int) - 100
    ∧ check_for_time ⟨5000⟩ ⟨0, 100⟩ = Except.ok () :=
  ⟨by decide, (check_for_time_spec ⟨5000⟩ ⟨0, 100⟩).2 (by decide)⟩

/-- C10: `get_program_accounts` never fails on undecodable account data: it
returns `ok` with exactly the accounts whose data decodes, in scan order,
silently dropping the rest; `get_boost_stake_accounts` is that same scan at
the `Stake` type. -/
theorem get_program_accounts_spec {T : Type}
    (decode : List Nat → Except WorkerError T)
    (fetched : List (Pk × List Nat)) :
    get_program_accounts decode fetched
      = Except.ok (fetched.filterMap (fun pd =>
          match decode pd.2 with
          | Except.ok t => some (pd.1, t)
          | Except.error _ => none))
    ∧ (∀ (d : List Nat → Except WorkerError Stake)
        (f : List (Pk × List Nat)),
        get_boost_stake_accounts d f = get_program_accounts d f) := by
  constructor
  · unfold get_program_accounts
    congr 1
    induction fetched with
    | nil => rfl
    | cons pd rest ih =>
      simp only [List.foldr_cons, List.filterMap_cons]
      cases hd : decode pd.2 with
      | ok t =>
        simp only [hd]
        rw [ih]
      | error e =>
        simp only [hd]
        rw [ih]
  · intro d f
    rfl
